import Mathlib

/-!
Verification of the day-view calendar booking engine: time codec, overlap
predicate, conflict check, overlap grouping and column layout, drag/resize
interaction arithmetic, the booking store and the persistence commit flow.
Each definition is a shallow embedding of the corresponding TypeScript
function; theorems at the end settle the specification claims.
-/

namespace Cal

/-- Calendar date (year, month, day), mirroring the DateValue fields the code
compares. -/
@[ext]
structure CalDate where
  year : Int
  month : Int
  day : Int
deriving DecidableEq

/-- A parsed time-of-day string in the HH:mm shape: hour and minute components.
The hour may exceed 23 for computed end times, as in the source, where the
formatting pads but does not wrap. -/
structure HM where
  hh : Nat
  mm : Nat
deriving DecidableEq

/-- Embeds timeToMinutes: hours * 60 + minutes. -/
def timeToMinutes (t : HM) : Nat := t.hh * 60 + t.mm

/-- Embeds minutesToTime: hour component by integer division, minute component
by remainder. -/
def minutesToTime (minutes : Nat) : HM := ⟨minutes / 60, minutes % 60⟩

/-- Client record of an appointment. -/
structure Client where
  id : String
  name : String
  phone : Option String := none
  email : Option String := none
deriving DecidableEq

/-- The Appointment record. Timestamps are modeled as integers. -/
structure Appointment where
  id : String
  serviceType : String
  clients : List Client
  date : CalDate
  startTime : HM
  durationMinutes : Nat
  notes : Option String := none
  createdAt : Int
  updatedAt : Int
deriving DecidableEq

/-- Embeds getAppointmentEndTime: start minutes plus duration, reformatted. -/
def getAppointmentEndTime (appointment : Appointment) : HM :=
  minutesToTime (timeToMinutes appointment.startTime + appointment.durationMinutes)

/-- Embeds appointmentsOverlap: different dates never overlap; otherwise the
half-open interval test start1 < end2 and start2 < end1 on minutes. -/
def appointmentsOverlap (apt1 apt2 : Appointment) : Bool :=
  if apt1.date.year ≠ apt2.date.year ∨ apt1.date.month ≠ apt2.date.month ∨
      apt1.date.day ≠ apt2.date.day then
    false
  else
    let apt1Start := timeToMinutes apt1.startTime
    let apt1End := timeToMinutes (getAppointmentEndTime apt1)
    let apt2Start := timeToMinutes apt2.startTime
    let apt2End := timeToMinutes (getAppointmentEndTime apt2)
    decide (apt1Start < apt2End) && decide (apt2Start < apt1End)

/-- Embeds hasConflicts: some existing appointment with a different id
overlaps. -/
def hasConflicts (appointment : Appointment) (existingAppointments : List Appointment) : Bool :=
  existingAppointments.any fun existing =>
    decide (existing.id ≠ appointment.id) && appointmentsOverlap appointment existing

/-- Layout record produced per appointment by calculateAppointmentLayout. -/
structure AppointmentLayout where
  appointmentId : String
  column : Nat
  totalColumns : Nat
deriving DecidableEq

/-- The stable ascending sort by start time performed at the top of
calculateAppointmentLayout. -/
def sortByStart (appointments : List Appointment) : List Appointment :=
  appointments.mergeSort fun a b =>
    decide (timeToMinutes a.startTime ≤ timeToMinutes b.startTime)

/-- One step of the grouping loop: scan the existing groups in creation order,
append the appointment to the first group containing a member it overlaps,
otherwise open a new group at the end. -/
def insertIntoGroups : List (List Appointment) → Appointment → List (List Appointment)
  | [], apt => [[apt]]
  | group :: rest, apt =>
    if group.any fun existing => appointmentsOverlap apt existing then
      (group ++ [apt]) :: rest
    else
      group :: insertIntoGroups rest apt

/-- The grouping phase of calculateAppointmentLayout, folded over the sorted
appointments. -/
def buildGroups (sorted : List Appointment) : List (List Appointment) :=
  sorted.foldl insertIntoGroups []

/-- One step of the column-assignment loop inside a group: scan columns left
to right, place the appointment in the first column none of whose members
overlap it, otherwise open a new column at the end; also returns the column
index used. -/
def insertIntoColumns : List (List Appointment) → Appointment → List (List Appointment) × Nat
  | [], apt => ([[apt]], 0)
  | column :: rest, apt =>
    if column.any fun existing => appointmentsOverlap apt existing then
      let (rest', idx) := insertIntoColumns rest apt
      (column :: rest', idx + 1)
    else
      ((column ++ [apt]) :: rest, 0)

/-- Functional model of the JS Map built by calculateAppointmentLayout:
lookup by appointment id, a later set overwrites an earlier one. -/
abbrev LayoutMap := String → Option AppointmentLayout

/-- Map.set on the functional map model. -/
def mapSet (m : LayoutMap) (k : String) (v : AppointmentLayout) : LayoutMap :=
  fun k' => if k' = k then some v else m k'

/-- Column assignment for one group: a singleton group gets column 0 of 1;
otherwise the group is re-sorted, columns are assigned greedily with
totalColumns first written as 0, then every group member has its
totalColumns entry updated to the final column count. -/
def assignGroup (m : LayoutMap) (group : List Appointment) : LayoutMap :=
  match group with
  | [apt] => mapSet m apt.id ⟨apt.id, 0, 1⟩
  | _ =>
    let sortedGroup := sortByStart group
    let step := fun (acc : List (List Appointment) × LayoutMap) (apt : Appointment) =>
      let (columns', idx) := insertIntoColumns acc.1 apt
      (columns', mapSet acc.2 apt.id ⟨apt.id, idx, 0⟩)
    let state := sortedGroup.foldl step ([], m)
    let totalColumns := state.1.length
    group.foldl (fun mm apt =>
      match mm apt.id with
      | some info => mapSet mm apt.id { info with totalColumns := totalColumns }
      | none => mm) state.2

/-- Embeds calculateAppointmentLayout: empty input gives the empty map,
otherwise group the sorted appointments and assign columns group by group. -/
def calculateAppointmentLayout (appointments : List Appointment) : LayoutMap :=
  if appointments.isEmpty then fun _ => none
  else (buildGroups (sortByStart appointments)).foldl assignGroup (fun _ => none)

/-- Start of an appointment in minutes since midnight. -/
def startMin (a : Appointment) : Nat := timeToMinutes a.startTime

/-- End of an appointment in minutes since midnight: start plus duration. -/
def endMin (a : Appointment) : Nat := timeToMinutes a.startTime + a.durationMinutes

/-- A partial appointment, mirroring the TypeScript Partial record: every
field optional. An absent field leaves the original value in place on merge.
A field explicitly set to the JS undefined value is modeled as absent. -/
structure PartialAppointment where
  id : Option String := none
  serviceType : Option String := none
  clients : Option (List Client) := none
  date : Option CalDate := none
  startTime : Option HM := none
  durationMinutes : Option Nat := none
  notes : Option String := none
  createdAt : Option Int := none
  updatedAt : Option Int := none
deriving DecidableEq

/-- The spread merge performed by both the store and the persistence layer:
fields of the partial override the original, and updatedAt is then stamped
with the current time regardless of the partial. -/
def applyPartial (apt : Appointment) (updates : PartialAppointment) (now : Int) : Appointment :=
  { id := updates.id.getD apt.id
    serviceType := updates.serviceType.getD apt.serviceType
    clients := updates.clients.getD apt.clients
    date := updates.date.getD apt.date
    startTime := updates.startTime.getD apt.startTime
    durationMinutes := updates.durationMinutes.getD apt.durationMinutes
    notes := if updates.notes.isSome then updates.notes else apt.notes
    createdAt := updates.createdAt.getD apt.createdAt
    updatedAt := now }

/-- Embeds AppointmentStore.update: find the first appointment with the id;
if none, leave the list untouched; otherwise replace that entry with the
merged record. -/
def appointmentStoreUpdate (appointments : List Appointment) (id : String)
    (updates : PartialAppointment) (now : Int) : List Appointment :=
  match appointments.findIdx? fun apt => apt.id == id with
  | none => appointments
  | some index =>
    match appointments[index]? with
    | some apt => appointments.set index (applyPartial apt updates now)
    | none => appointments

/-- Result value of the persistence port: either data or an error string,
mirroring the ApiResponse shape. -/
inductive ApiResp where
  | data (appointment : Appointment)
  | fail (message : String)
deriving DecidableEq

/-- Embeds the persistence updateAppointment: find the appointment in the
stored list; a missing id yields an error result (not a thrown exception);
otherwise the merged record is saved and returned. -/
def apiUpdateAppointment (storage : List Appointment) (id : String)
    (updates : PartialAppointment) (now : Int) : List Appointment × ApiResp :=
  match storage.findIdx? fun apt => apt.id == id with
  | none => (storage, ApiResp.fail "Appointment not found")
  | some index =>
    match storage[index]? with
    | some apt =>
      let merged := applyPartial apt updates now
      (storage.set index merged, ApiResp.data merged)
    | none => (storage, ApiResp.fail "Appointment not found")

/-- The persistence call as seen by a caller with a catch block: the
TypeScript function wraps its whole body in its own try/catch and signals
failure through the returned error value, so the call itself never faults.
Its faults would surface here as the error constructor. -/
def apiUpdateAppointmentE (storage : List Appointment) (id : String)
    (updates : PartialAppointment) (now : Int) :
    Except String (List Appointment × ApiResp) :=
  Except.ok (apiUpdateAppointment storage id updates now)

/-- The partial update committed by a drag drop: new date and start time. -/
def dropUpdate (targetDay : CalDate) (targetTime : HM) : PartialAppointment :=
  { date := some targetDay, startTime := some targetTime }

/-- The partial update committed by a resize: new duration. -/
def resizeUpdate (durationMinutes : Nat) : PartialAppointment :=
  { durationMinutes := some durationMinutes }

/-- Outcome of a commit: the local store, the persisted list, the response of
the persistence call, and whether the full-reload reconciliation ran. -/
structure CommitResult where
  store : List Appointment
  storage : List Appointment
  response : ApiResp
  reloaded : Bool
deriving DecidableEq

/-- Embeds performAppointmentDrop for an active drag: the store is updated
optimistically, then the persistence update is awaited with its returned
value ignored. The catch block, which would fetch all appointments and
replace the store with them, runs only when the awaited call faults; the
error-result path does not reach it. -/
def performAppointmentDrop (store storage : List Appointment) (draggedId : String)
    (targetDay : CalDate) (targetTime : HM) (now : Int) : CommitResult :=
  let updates := dropUpdate targetDay targetTime
  let store' := appointmentStoreUpdate store draggedId updates now
  match apiUpdateAppointmentE storage draggedId updates now with
  | Except.ok (storage', resp) =>
    { store := store', storage := storage', response := resp, reloaded := false }
  | Except.error message =>
    { store := storage, storage := storage, response := ApiResp.fail message, reloaded := true }

/-- Embeds the commit tail of handleResizeEnd: optimistic store update, then
the persistence update with the result ignored; there is no catch block and
no reload path at all. -/
def performResizeCommit (store storage : List Appointment) (appointmentId : String)
    (durationMinutes : Nat) (now : Int) : CommitResult :=
  let updates := resizeUpdate durationMinutes
  let store' := appointmentStoreUpdate store appointmentId updates now
  let result := apiUpdateAppointment storage appointmentId updates now
  { store := store', storage := result.1, response := result.2, reloaded := false }

/-- One movement step of the drag state machine, shared by the mouse and
touch handlers: below or at the 5 px threshold on both axes nothing happens;
strictly beyond it on either axis, and only when the interaction has not yet
moved, the drag-start callback fires. Returns the new hasMoved flag and
whether the callback fired. -/
def dragMoveStep (startX startY : ℚ) (hasMoved : Bool) (pos : ℚ × ℚ) : Bool × Bool :=
  let deltaX := |pos.1 - startX|
  let deltaY := |pos.2 - startY|
  if !hasMoved && (decide (deltaX > 5) || decide (deltaY > 5)) then (true, true)
  else (hasMoved, false)

/-- Fold of the movement steps of one interaction, carrying the hasMoved
flag and the number of drag-start callback firings. -/
def dragFold (startX startY : ℚ) (acc : Bool × Nat) (moves : List (ℚ × ℚ)) : Bool × Nat :=
  moves.foldl (fun acc pos =>
    let step := dragMoveStep startX startY acc.1 pos
    (step.1, acc.2 + if step.2 then 1 else 0)) acc

/-- Number of drag-start callback firings over one interaction, folding the
movement steps from a fresh pointer-down state. -/
def dragFireCount (startX startY : ℚ) (moves : List (ℚ × ℚ)) : Nat :=
  (dragFold startX startY (false, 0) moves).2

/-- JS Math.round: round half toward positive infinity. -/
def jsRound (x : ℚ) : ℤ := ⌊x + 1 / 2⌋

/-- Embeds handleResizeMove: the live preview height after a move whose
pointer sits at clientY. Delta minutes are rounded from the pixel delta, the
candidate duration is clamped to at least one slot interval and rounded to
the nearest 15 minutes, and the height is recomputed from it. -/
def handleResizeMoveHeight (slotHeightPx slotIntervalMinutes resizeStartY
    resizeStartDuration clientY : ℚ) : ℚ :=
  let deltaY := clientY - resizeStartY
  let deltaMinutes := (jsRound (deltaY / slotHeightPx * slotIntervalMinutes) : ℚ)
  let newDuration := max slotIntervalMinutes (resizeStartDuration + deltaMinutes)
  let roundedDuration := (jsRound (newDuration / 15) : ℚ) * 15
  roundedDuration / slotIntervalMinutes * slotHeightPx

/-- Embeds the duration computation of handleResizeEnd: read the duration
back from the current preview height and round it to the nearest 15
minutes. -/
def handleResizeEndDuration (slotHeightPx slotIntervalMinutes currentResizeHeight : ℚ) : ℚ :=
  let newDurationMinutes :=
    (jsRound (currentResizeHeight / slotHeightPx * slotIntervalMinutes) : ℚ)
  (jsRound (newDurationMinutes / 15) : ℚ) * 15

/-- The duration a resize commits after a pointer move to clientY followed by
release. -/
def resizeCommittedDuration (slotHeightPx slotIntervalMinutes resizeStartY
    resizeStartDuration clientY : ℚ) : ℚ :=
  handleResizeEndDuration slotHeightPx slotIntervalMinutes
    (handleResizeMoveHeight slotHeightPx slotIntervalMinutes resizeStartY
      resizeStartDuration clientY)

/-- Embeds calculateDropTargetTime for a pointer over a slot element: the
pointer offset inside the slot is clamped to the slot box, and the slot is
split at half height — the upper half snaps to the slot's base time, the
lower half to base time plus 15 minutes. -/
def calculateDropTargetTime (time : HM) (clientY rectTop rectHeight : ℚ) : HM :=
  let relativeY := clientY - rectTop
  let clampedY := max 0 (min relativeY (rectHeight - 1))
  let slotProgress := clampedY / rectHeight
  if slotProgress < 1 / 2 then time
  else minutesToTime (timeToMinutes time + 15)

/-- The closed-form internal hour-boundary count of the position mapper:
first hour mark strictly after the start, last hour mark strictly before the
end, zero when they cross. -/
def internalHourBoundaries (startM endM : Nat) : Nat :=
  let firstInside := if startM % 60 = 0 then startM + 60 else ((startM + 59) / 60) * 60
  let lastInside := if endM % 60 = 0 then endM - 60 else (endM / 60) * 60
  if lastInside < firstInside then 0 else (lastInside - firstInside) / 60 + 1

/-- Modelled from the spec: the source file defining
calculateAppointmentPosition (the PositionMapper) is not among the provided
sources — only its unit tests and its call sites are — so this definition
follows the spec formulas. topPx is the slot offset from midnight times the
slot height plus one border height per hour mark from midnight up to and
including the one at the start; heightPx is the duration in slots times the
slot height plus one border height per hour mark strictly inside the span.
Returns (topPx, heightPx). -/
def calculateAppointmentPosition (startTime : HM) (durationMinutes : Nat)
    (slotHeightPx slotIntervalMinutes hourBorderHeightPx : ℚ) : ℚ × ℚ :=
  let startMinutes := timeToMinutes startTime
  let slotsFromMidnight := (startMinutes : ℚ) / slotIntervalMinutes
  let hourBoundariesBefore := startMinutes / 60 + 1
  let topPx := slotsFromMidnight * slotHeightPx +
    (hourBoundariesBefore : ℚ) * hourBorderHeightPx
  let heightPx := (durationMinutes : ℚ) / slotIntervalMinutes * slotHeightPx +
    (internalHourBoundaries startMinutes (startMinutes + durationMinutes) : ℚ) *
      hourBorderHeightPx
  (topPx, heightPx)

/-- Sample client list for concrete instances. -/
def sampleClients : List Client := [{ id := "c1", name := "Ann" }]

/-- Concrete appointment: 09:00 for 60 minutes. -/
def aptA : Appointment :=
  { id := "a", serviceType := "haircut", clients := sampleClients,
    date := ⟨2026, 1, 5⟩, startTime := ⟨9, 0⟩, durationMinutes := 60,
    createdAt := 0, updatedAt := 0 }

/-- Concrete appointment: 10:00 for 60 minutes, starting exactly when aptA
ends. -/
def aptB : Appointment :=
  { id := "b", serviceType := "manicure", clients := sampleClients,
    date := ⟨2026, 1, 5⟩, startTime := ⟨10, 0⟩, durationMinutes := 60,
    createdAt := 0, updatedAt := 0 }

theorem timeToMinutes_minutesToTime (m : Nat) : timeToMinutes (minutesToTime m) = m := by
  simp only [timeToMinutes, minutesToTime]
  omega

theorem appointmentsOverlap_iff (a b : Appointment) :
    appointmentsOverlap a b = true ↔
      (a.date = b.date ∧ startMin a < endMin b ∧ startMin b < endMin a) := by
  unfold appointmentsOverlap
  split
  next h =>
    simp only [Bool.false_eq_true, false_iff, not_and]
    intro hd
    rcases h with h | h | h <;> simp [hd] at h
  next h =>
    push_neg at h
    obtain ⟨h1, h2, h3⟩ := h
    have hd : a.date = b.date := CalDate.ext h1 h2 h3
    simp [getAppointmentEndTime, timeToMinutes_minutesToTime, startMin, endMin, hd]

theorem appointmentsOverlap_comm (a b : Appointment) :
    appointmentsOverlap a b = appointmentsOverlap b a := by
  have hiff : appointmentsOverlap a b = true ↔ appointmentsOverlap b a = true := by
    rw [appointmentsOverlap_iff, appointmentsOverlap_iff]
    constructor
    · rintro ⟨hd, h1, h2⟩
      exact ⟨hd.symm, h2, h1⟩
    · rintro ⟨hd, h1, h2⟩
      exact ⟨hd.symm, h2, h1⟩
  cases hab : appointmentsOverlap a b
  · cases hba : appointmentsOverlap b a
    · rfl
    · exact absurd (hiff.mpr hba) (by simp [hab])
  · exact (hiff.mp hab).symm

/-- Claim C6: two bookings on the same date overlap exactly when
start1 < end2 and start2 < end1 with half-open interval semantics; a booking
ending exactly at the minute another starts does not overlap it, and
bookings on different dates never overlap. -/
theorem overlap_half_open (a b : Appointment) :
    (appointmentsOverlap a b = true ↔
      (a.date = b.date ∧ startMin a < endMin b ∧ startMin b < endMin a))
    ∧ (endMin a = startMin b → appointmentsOverlap a b = false)
    ∧ (a.date ≠ b.date → appointmentsOverlap a b = false) := by
  refine ⟨appointmentsOverlap_iff a b, ?_, ?_⟩
  · intro h
    cases hov : appointmentsOverlap a b
    · rfl
    · have := (appointmentsOverlap_iff a b).mp hov
      omega
  · intro hne
    cases hov : appointmentsOverlap a b
    · rfl
    · exact absurd ((appointmentsOverlap_iff a b).mp hov).1 hne

/-- Witness for C6 at a concrete back-to-back pair on one date. -/
theorem overlap_half_open_witness :
    endMin aptA = startMin aptB ∧ appointmentsOverlap aptA aptB = false :=
  ⟨by decide, (overlap_half_open aptA aptB).2.1 (by decide)⟩

/-- Counterexample for C7: the overlap relation is not irreflexive — a
positive-duration booking overlaps itself. -/
theorem overlap_self_at_aptA : appointmentsOverlap aptA aptA = true := by decide

/-- Claim C7 (amended): the overlap relation is symmetric and is reflexive
on positive-duration bookings rather than irreflexive; hasConflicts still
never reports a booking as conflicting with itself when the checked list
contains that booking, because a conflict requires a distinct id. -/
theorem overlap_symm_no_self_conflict :
    (∀ a b : Appointment, appointmentsOverlap a b = appointmentsOverlap b a)
    ∧ (∀ (a : Appointment) (l1 l2 : List Appointment),
        hasConflicts a (l1 ++ a :: l2) = hasConflicts a (l1 ++ l2))
    ∧ (∀ a : Appointment, 0 < a.durationMinutes → appointmentsOverlap a a = true) := by
  refine ⟨appointmentsOverlap_comm, ?_, ?_⟩
  · intro a l1 l2
    simp [hasConflicts]
  · intro a ha
    rw [appointmentsOverlap_iff]
    refine ⟨rfl, ?_, ?_⟩ <;> · unfold startMin endMin; omega

/-- Witness for C7 (amended) at a concrete booking and list. -/
theorem overlap_symm_no_self_conflict_witness :
    0 < aptA.durationMinutes ∧ appointmentsOverlap aptA aptA = true :=
  ⟨by decide, overlap_symm_no_self_conflict.2.2 aptA (by decide)⟩

theorem internalHourBoundaries_def (s e : Nat) : internalHourBoundaries s e =
    (if (if e % 60 = 0 then e - 60 else e / 60 * 60) <
        (if s % 60 = 0 then s + 60 else (s + 59) / 60 * 60) then 0
     else ((if e % 60 = 0 then e - 60 else e / 60 * 60) -
        (if s % 60 = 0 then s + 60 else (s + 59) / 60 * 60)) / 60 + 1) := rfl

theorem internalHourBoundaries_closed (s e : Nat) :
    internalHourBoundaries s e = (e + 59) / 60 - (s / 60 + 1) := by
  rw [internalHourBoundaries_def]
  split_ifs <;> omega

/-- The closed-form internal boundary count agrees with the number of hour
marks strictly inside the half-open span. -/
theorem internalHourBoundaries_eq_card (s e : Nat) :
    internalHourBoundaries s e =
      ((Finset.Ioo s e).filter fun t => 60 ∣ t).card := by
  have himg : ((Finset.Ioo s e).filter fun t => 60 ∣ t) =
      (Finset.Ico (s / 60 + 1) ((e + 59) / 60)).image fun k => 60 * k := by
    ext x
    simp only [Finset.mem_filter, Finset.mem_Ioo, Finset.mem_image, Finset.mem_Ico]
    constructor
    · rintro ⟨⟨hs, he⟩, k, rfl⟩
      exact ⟨k, ⟨by omega, by omega⟩, rfl⟩
    · rintro ⟨k, ⟨h1, h2⟩, rfl⟩
      exact ⟨⟨by omega, by omega⟩, k, rfl⟩
  rw [himg, Finset.card_image_of_injective _ fun k l h => by omega, Nat.card_Ico,
    internalHourBoundaries_closed]

/-- Claim C4: with slot height 32, slot interval 30 and hour border 2 the
position mapper gives topPx 662 at 10:00, heightPx 64 for (10:00, 60) and
heightPx 98 for (10:30, 90); in general heightPx is the duration in slots
times the slot height plus one border height per hour mark strictly inside
the booking's half-open span. -/
theorem position_mapper_spec :
    (calculateAppointmentPosition ⟨10, 0⟩ 60 32 30 2).1 = 662
    ∧ (calculateAppointmentPosition ⟨10, 0⟩ 60 32 30 2).2 = 64
    ∧ (calculateAppointmentPosition ⟨10, 30⟩ 90 32 30 2).2 = 98
    ∧ ∀ (t : HM) (d : Nat) (slotH slotI borderH : ℚ),
        (calculateAppointmentPosition t d slotH slotI borderH).2 =
          (d : ℚ) / slotI * slotH +
          (((Finset.Ioo (timeToMinutes t) (timeToMinutes t + d)).filter
              fun x => 60 ∣ x).card : ℚ) * borderH := by
  refine ⟨?_, ?_, ?_, ?_⟩
  · norm_num [calculateAppointmentPosition, timeToMinutes, internalHourBoundaries_closed]
  · norm_num [calculateAppointmentPosition, timeToMinutes, internalHourBoundaries_closed]
  · norm_num [calculateAppointmentPosition, timeToMinutes, internalHourBoundaries_closed]
  · intro t d slotH slotI borderH
    simp [calculateAppointmentPosition, internalHourBoundaries_eq_card]

/-- Claim C8: over a slot of height at least 2 px, a pointer in the upper
half of the slot snaps to the slot's base time and a pointer in the lower
half snaps to the base time plus 15 minutes. -/
theorem drop_target_half_split (time : HM) (clientY rectTop rectHeight : ℚ)
    (hh : 2 ≤ rectHeight) (h0 : 0 ≤ clientY - rectTop)
    (h1 : clientY - rectTop < rectHeight) :
    (clientY - rectTop < rectHeight / 2 →
      calculateDropTargetTime time clientY rectTop rectHeight = time)
    ∧ (rectHeight / 2 ≤ clientY - rectTop →
      calculateDropTargetTime time clientY rectTop rectHeight =
        minutesToTime (timeToMinutes time + 15)) := by
  have hpos : (0 : ℚ) < rectHeight := by linarith
  constructor
  · intro hy
    have hcl : max 0 (min (clientY - rectTop) (rectHeight - 1)) = clientY - rectTop := by
      rw [min_eq_left (by linarith), max_eq_right h0]
    simp only [calculateDropTargetTime, hcl]
    rw [if_pos]
    rw [div_lt_iff₀ hpos]
    linarith
  · intro hy
    have hlow : rectHeight / 2 ≤ min (clientY - rectTop) (rectHeight - 1) :=
      le_min hy (by linarith)
    have hcl : max 0 (min (clientY - rectTop) (rectHeight - 1)) =
        min (clientY - rectTop) (rectHeight - 1) :=
      max_eq_right (le_min h0 (by linarith))
    simp only [calculateDropTargetTime, hcl]
    rw [if_neg]
    rw [not_lt, le_div_iff₀ hpos]
    linarith

/-- Witness for C8 over a 32 px slot: pointer 7 px into the slot keeps the
base time, pointer 16 px in snaps 15 minutes later. -/
theorem drop_target_half_split_witness :
    calculateDropTargetTime ⟨10, 0⟩ 107 100 32 = ⟨10, 0⟩
    ∧ calculateDropTargetTime ⟨10, 0⟩ 116 100 32 =
        minutesToTime (timeToMinutes ⟨10, 0⟩ + 15) :=
  ⟨(drop_target_half_split ⟨10, 0⟩ 107 100 32 (by norm_num) (by norm_num)
      (by norm_num)).1 (by norm_num),
    (drop_target_half_split ⟨10, 0⟩ 116 100 32 (by norm_num) (by norm_num)
      (by norm_num)).2 (by norm_num)⟩

theorem jsRound_mono {x y : ℚ} (h : x ≤ y) : jsRound x ≤ jsRound y :=
  Int.floor_le_floor (by linarith)

theorem jsRound_intCast (n : ℤ) : jsRound (n : ℚ) = n := by
  unfold jsRound
  rw [add_comm, Int.floor_add_int]
  norm_num

/-- Claim C9: with a positive slot height and a slot interval that is a
positive multiple of 15 minutes, every resize commit yields a duration that
is a positive multiple of 15 and at least one slot interval, for every
pointer delta. -/
theorem resize_commit_duration (slotHeightPx slotIntervalMinutes resizeStartY
    resizeStartDuration clientY : ℚ) (m : ℤ)
    (hH : 0 < slotHeightPx) (hm : 1 ≤ m) (hI : slotIntervalMinutes = 15 * m) :
    ∃ n : ℤ, 1 ≤ n ∧
      resizeCommittedDuration slotHeightPx slotIntervalMinutes resizeStartY
        resizeStartDuration clientY = 15 * n ∧
      slotIntervalMinutes ≤ 15 * n := by
  have hmq : (1 : ℚ) ≤ (m : ℚ) := by exact_mod_cast hm
  have hI0 : (0 : ℚ) < slotIntervalMinutes := by rw [hI]; linarith
  set dm : ℚ :=
    (jsRound ((clientY - resizeStartY) / slotHeightPx * slotIntervalMinutes) : ℚ) with hdm
  set nd : ℚ := max slotIntervalMinutes (resizeStartDuration + dm) with hnd
  set r : ℤ := jsRound (nd / 15) with hr
  have key : resizeCommittedDuration slotHeightPx slotIntervalMinutes resizeStartY
      resizeStartDuration clientY = (r : ℚ) * 15 := by
    simp only [resizeCommittedDuration, handleResizeEndDuration, handleResizeMoveHeight,
      ← hdm, ← hnd, ← hr]
    have h1 : (r : ℚ) * 15 / slotIntervalMinutes * slotHeightPx / slotHeightPx *
        slotIntervalMinutes = ((r * 15 : ℤ) : ℚ) := by
      push_cast
      field_simp
      ring
    rw [h1, jsRound_intCast]
    have h2 : ((r * 15 : ℤ) : ℚ) / 15 = ((r : ℤ) : ℚ) := by
      push_cast
      field_simp
    rw [h2, jsRound_intCast]
  have hndge : slotIntervalMinutes ≤ nd := le_max_left _ _
  have hmr : m ≤ r := by
    have hstep : (m : ℚ) ≤ nd / 15 := by
      rw [le_div_iff₀ (by norm_num : (0:ℚ) < 15)]
      rw [hI] at hndge
      linarith
    calc m = jsRound ((m : ℤ) : ℚ) := (jsRound_intCast m).symm
      _ ≤ r := jsRound_mono hstep
  refine ⟨r, hm.trans hmr, by rw [key]; ring, ?_⟩
  rw [hI]
  have : (m : ℚ) ≤ (r : ℚ) := by exact_mod_cast hmr
  linarith

/-- Witness for C9 at the deployed configuration (32 px slots, 30-minute
interval) and a concrete pointer move. -/
theorem resize_commit_duration_witness :
    (0 : ℚ) < 32 ∧ (1 : ℤ) ≤ 2 ∧ (30 : ℚ) = 15 * 2 ∧
    ∃ n : ℤ, 1 ≤ n ∧ resizeCommittedDuration 32 30 0 60 16 = 15 * n ∧
      (30 : ℚ) ≤ 15 * n :=
  ⟨by norm_num, by norm_num, by norm_num,
    resize_commit_duration 32 30 0 60 16 2 (by norm_num) (by norm_num) (by norm_num)⟩

theorem dragFold_true (startX startY : ℚ) (moves : List (ℚ × ℚ)) (n : Nat) :
    dragFold startX startY (true, n) moves = (true, n) := by
  induction moves with
  | nil => rfl
  | cons m rest ih =>
    have hstep : dragMoveStep startX startY true m = (true, false) := by
      simp [dragMoveStep]
    simp only [dragFold, List.foldl_cons] at ih ⊢
    simpa [hstep] using ih

theorem dragFold_false (startX startY : ℚ) (moves : List (ℚ × ℚ)) (n : Nat) :
    (dragFold startX startY (false, n) moves).2 =
      n + (if ∃ m ∈ moves, 5 < |m.1 - startX| ∨ 5 < |m.2 - startY| then 1 else 0) := by
  induction moves generalizing n with
  | nil => simp [dragFold]
  | cons m rest ih =>
    by_cases hm : 5 < |m.1 - startX| ∨ 5 < |m.2 - startY|
    · have hstep : dragMoveStep startX startY false m = (true, true) := by
        simp [dragMoveStep]
        exact fun h1 => hm.resolve_left (not_lt.mpr h1)
      have hgoal : dragFold startX startY (false, n) (m :: rest) =
          dragFold startX startY (true, n + 1) rest := by
        simp [dragFold, hstep]
      have hex : ∃ x ∈ m :: rest, 5 < |x.1 - startX| ∨ 5 < |x.2 - startY| :=
        ⟨m, List.mem_cons_self m rest, hm⟩
      rw [hgoal, dragFold_true, if_pos hex]
    · push_neg at hm
      have hstep : dragMoveStep startX startY false m = (false, false) := by
        simp [dragMoveStep]
        exact hm
      have hgoal : dragFold startX startY (false, n) (m :: rest) =
          dragFold startX startY (false, n) rest := by
        simp [dragFold, hstep]
      have hex : (∃ x ∈ m :: rest, 5 < |x.1 - startX| ∨ 5 < |x.2 - startY|) ↔
          (∃ x ∈ rest, 5 < |x.1 - startX| ∨ 5 < |x.2 - startY|) := by
        simp only [List.mem_cons]
        constructor
        · rintro ⟨x, hx | hx, hlt⟩
          · subst hx
            rcases hlt with h | h
            · exact absurd h (by linarith [hm.1])
            · exact absurd h (by linarith [hm.2])
          · exact ⟨x, hx, hlt⟩
        · rintro ⟨x, hx, hlt⟩
          exact ⟨x, Or.inr hx, hlt⟩
      rw [hgoal, ih n]
      simp only [hex]

/-- Claim C5 (amended): a pointer movement of at most 5 px on both axes
never fires the drag-start callback; a movement of strictly more than 5 px
on either axis fires it exactly once per interaction. -/
theorem drag_threshold_strict (startX startY : ℚ) (moves : List (ℚ × ℚ)) :
    ((∀ m ∈ moves, |m.1 - startX| ≤ 5 ∧ |m.2 - startY| ≤ 5) →
      dragFireCount startX startY moves = 0)
    ∧ ((∃ m ∈ moves, 5 < |m.1 - startX| ∨ 5 < |m.2 - startY|) →
      dragFireCount startX startY moves = 1) := by
  constructor
  · intro h
    unfold dragFireCount
    rw [dragFold_false, if_neg]
    rintro ⟨m, hmem, hgt | hgt⟩
    · exact absurd hgt (not_lt.mpr (h m hmem).1)
    · exact absurd hgt (not_lt.mpr (h m hmem).2)
  · intro h
    unfold dragFireCount
    rw [dragFold_false, if_pos h]

/-- Witness for C5 (amended) at concrete movements: one staying at the
threshold, one beyond it. -/
theorem drag_threshold_strict_witness :
    dragFireCount 0 0 [(5, 0)] = 0 ∧ dragFireCount 0 0 [(6, 0)] = 1 :=
  ⟨(drag_threshold_strict 0 0 [(5, 0)]).1 (by norm_num),
    (drag_threshold_strict 0 0 [(6, 0)]).2 ⟨(6, 0), by norm_num, by norm_num⟩⟩

/-- Counterexample for C5: a movement of exactly 5 px on one axis (and none
on the other) fires no drag-start callback, although the claim says the
threshold itself fires. -/
theorem drag_exact_threshold_no_fire :
    dragFireCount 0 0 [(5, 0)] = 0 ∧ ((5 : ℚ) ≥ 5) := by
  constructor
  · norm_num [dragFireCount, dragFold, dragMoveStep]
  · norm_num

/-- Counterexample for C2: a drop committed while the persistence layer does
not know the id produces an error response, yet no reload runs and the
optimistic local update stays. -/
theorem drop_commit_notfound_no_reload :
    (performAppointmentDrop [aptA] [] "a" ⟨2026, 1, 6⟩ ⟨11, 0⟩ 5).response =
      ApiResp.fail "Appointment not found"
    ∧ (performAppointmentDrop [aptA] [] "a" ⟨2026, 1, 6⟩ ⟨11, 0⟩ 5).reloaded = false
    ∧ (performAppointmentDrop [aptA] [] "a" ⟨2026, 1, 6⟩ ⟨11, 0⟩ 5).store =
        appointmentStoreUpdate [aptA] "a" (dropUpdate ⟨2026, 1, 6⟩ ⟨11, 0⟩) 5 :=
  ⟨rfl, rfl, rfl⟩

/-- Claim C2 (amended): an error result from the persistence update — a
not-found id included — triggers no reload on either commit path: the drop
handler ignores the response and keeps the optimistic store update, since
its catch block runs only if the awaited call faults, which the persistence
layer's internal error handling prevents; the resize commit has no reload
path at all. -/
theorem failed_commit_no_reload (store storage : List Appointment) (id : String)
    (targetDay : CalDate) (targetTime : HM) (durationMinutes : Nat) (now : Int) :
    ((performAppointmentDrop store storage id targetDay targetTime now).reloaded = false
      ∧ (performAppointmentDrop store storage id targetDay targetTime now).store =
          appointmentStoreUpdate store id (dropUpdate targetDay targetTime) now)
    ∧ ((performResizeCommit store storage id durationMinutes now).reloaded = false
      ∧ (performResizeCommit store storage id durationMinutes now).store =
          appointmentStoreUpdate store id (resizeUpdate durationMinutes) now) :=
  ⟨⟨rfl, rfl⟩, ⟨rfl, rfl⟩⟩

/-- Partial update that carries an id, as Partial of the Appointment record
allows. -/
def partIdB : PartialAppointment := { id := some "b" }

/-- Partial update carrying only a new duration. -/
def partDur : PartialAppointment := { durationMinutes := some 90 }

/-- Counterexample for C10: a partial update that itself carries an id makes
the matched appointment change its id — it is not kept. -/
theorem store_update_id_overwritten :
    (appointmentStoreUpdate [aptA] "a" partIdB 7).map (fun apt => apt.id) = ["b"]
    ∧ "b" ≠ "a" := by
  exact ⟨rfl, by decide⟩

/-- Claim C10 (amended): when no stored appointment has the id, the update
leaves the list unchanged; when one does, only the first match is replaced
by the merge of its fields with the partial, with updatedAt stamped to the
current time, every other position, the length and the order unchanged; the
matched appointment keeps its id whenever the partial does not itself carry
an id. -/
theorem store_update_frame (l : List Appointment) (id : String)
    (u : PartialAppointment) (now : Int) :
    ((∀ a ∈ l, a.id ≠ id) → appointmentStoreUpdate l id u now = l)
    ∧ (∀ i, l.findIdx? (fun apt => apt.id == id) = some i →
        ∃ a, l[i]? = some a ∧ a.id = id
          ∧ (appointmentStoreUpdate l id u now).length = l.length
          ∧ (appointmentStoreUpdate l id u now)[i]? = some (applyPartial a u now)
          ∧ (∀ j, j ≠ i → (appointmentStoreUpdate l id u now)[j]? = l[j]?)
          ∧ (applyPartial a u now).updatedAt = now
          ∧ (u.id = none → (applyPartial a u now).id = a.id)) := by
  constructor
  · intro h
    have hnone : l.findIdx? (fun apt => apt.id == id) = none := by
      rw [List.findIdx?_eq_none_iff]
      intro x hx
      simp [h x hx]
    unfold appointmentStoreUpdate
    rw [hnone]
  · intro i hi
    obtain ⟨hlen, hp, -⟩ := List.findIdx?_eq_some_iff_getElem.mp hi
    have hget : l[i]? = some l[i] := List.getElem?_eq_getElem hlen
    have hupd : appointmentStoreUpdate l id u now = l.set i (applyPartial l[i] u now) := by
      unfold appointmentStoreUpdate
      split
      next heq =>
        rw [heq] at hi
        cases hi
      next index heq =>
        rw [heq] at hi
        injection hi with hii
        subst hii
        split
        next a heq2 =>
          rw [hget] at heq2
          injection heq2 with ha
          rw [ha]
        next heq2 =>
          rw [hget] at heq2
          cases heq2
    refine ⟨l[i], hget, by simpa using hp, ?_, ?_, ?_, rfl, ?_⟩
    · rw [hupd, List.length_set]
    · rw [hupd, List.getElem?_set_self hlen]
    · intro j hj
      rw [hupd, List.getElem?_set_ne (Ne.symm hj)]
    · intro hu
      simp [applyPartial, hu]

/-- Witness for C10 (amended): a concrete miss that leaves the list alone
and a concrete hit at index 0. -/
theorem store_update_frame_witness :
    (appointmentStoreUpdate [aptA] "x" partDur 7 = [aptA])
    ∧ ∃ a, [aptA][0]? = some a ∧ a.id = "a"
        ∧ (appointmentStoreUpdate [aptA] "a" partDur 7).length = [aptA].length
        ∧ (appointmentStoreUpdate [aptA] "a" partDur 7)[0]? = some (applyPartial a partDur 7)
        ∧ (∀ j, j ≠ 0 → (appointmentStoreUpdate [aptA] "a" partDur 7)[j]? = [aptA][j]?)
        ∧ (applyPartial a partDur 7).updatedAt = 7
        ∧ (partDur.id = none → (applyPartial a partDur 7).id = a.id) :=
  ⟨(store_update_frame [aptA] "x" partDur 7).1 (by decide),
    (store_update_frame [aptA] "a" partDur 7).2 0 rfl⟩

theorem sortByStart_perm (l : List Appointment) : (sortByStart l).Perm l :=
  List.mergeSort_perm l _

theorem sortByStart_sorted (l : List Appointment) :
    (sortByStart l).Pairwise fun a b => startMin a ≤ startMin b := by
  unfold sortByStart
  refine List.Pairwise.imp ?_ (List.sorted_mergeSort ?_ ?_ l)
  · intro a b hab
    simpa [startMin] using hab
  · intro a b c h1 h2
    simp only [decide_eq_true_eq] at h1 h2 ⊢
    omega
  · intro a b
    simp only [Bool.or_eq_true, decide_eq_true_eq]
    omega

theorem overlap_symmetric :
    Symmetric fun a b : Appointment => appointmentsOverlap a b = false :=
  fun x y h => (appointmentsOverlap_comm y x).trans h

theorem insertIntoGroups_no_overlap (gs : List (List Appointment)) (apt : Appointment)
    (h : ∀ g ∈ gs, ∀ x ∈ g, appointmentsOverlap apt x = false) :
    insertIntoGroups gs apt = gs ++ [[apt]] := by
  induction gs with
  | nil => rfl
  | cons g rest ih =>
    have hg : (g.any fun existing => appointmentsOverlap apt existing) = false := by
      simp only [List.any_eq_false]
      intro x hx
      simp [h g (List.mem_cons_self g rest) x hx]
    simp only [insertIntoGroups, hg, Bool.false_eq_true, if_false]
    rw [ih fun g' hg' => h g' (List.mem_cons_of_mem g hg'), List.cons_append]

theorem foldl_insert_disjoint (pending : List Appointment) (gs : List (List Appointment))
    (hout : ∀ y ∈ pending, ∀ g ∈ gs, ∀ x ∈ g, appointmentsOverlap y x = false)
    (hp : pending.Pairwise fun a b => appointmentsOverlap a b = false) :
    pending.foldl insertIntoGroups gs = gs ++ pending.map fun a => [a] := by
  induction pending generalizing gs with
  | nil => simp
  | cons y rest ih =>
    obtain ⟨hy, hrest⟩ := List.pairwise_cons.mp hp
    rw [List.foldl_cons,
      insertIntoGroups_no_overlap gs y (hout y (List.mem_cons_self y rest))]
    rw [ih (gs ++ [[y]]) ?_ hrest]
    · simp
    · intro z hz g hg x hx
      rcases List.mem_append.mp hg with hg | hg
      · exact hout z (List.mem_cons_of_mem y hz) g hg x hx
      · have hgy : g = [y] := by simpa using hg
        subst hgy
        have hxy : x = y := by simpa using hx
        subst hxy
        exact (appointmentsOverlap_comm z x).trans (hy z hz)

theorem foldl_assign_singletons (s : List Appointment) (m : LayoutMap) (k : String) :
    ((s.map fun a => [a]).foldl assignGroup m) k =
      if ∃ a ∈ s, a.id = k then some ⟨k, 0, 1⟩ else m k := by
  induction s generalizing m with
  | nil => simp
  | cons a rest ih =>
    rw [List.map_cons, List.foldl_cons]
    have ha : assignGroup m [a] = mapSet m a.id ⟨a.id, 0, 1⟩ := rfl
    rw [ha, ih]
    by_cases hk : ∃ x ∈ rest, x.id = k
    · rw [if_pos hk, if_pos ?_]
      obtain ⟨x, hx, hxk⟩ := hk
      exact ⟨x, List.mem_cons_of_mem a hx, hxk⟩
    · rw [if_neg hk]
      by_cases hak : k = a.id
      · subst hak
        rw [if_pos ⟨a, List.mem_cons_self a rest, rfl⟩]
        simp [mapSet]
      · have hnone : ¬ ∃ x ∈ a :: rest, x.id = k := by
          rintro ⟨x, hx, hxk⟩
          rcases List.mem_cons.mp hx with rfl | hx
          · exact hak hxk.symm
          · exact hk ⟨x, hx, hxk⟩
        rw [if_neg hnone]
        simp [mapSet, hak]

/-- Claim C3: on one date, pairwise-disjoint bookings all get column 0 and
totalColumns 1 from calculateAppointmentLayout. -/
theorem disjoint_all_single_column (l : List Appointment) (d : CalDate)
    (hdate : ∀ a ∈ l, a.date = d)
    (hdisj : l.Pairwise fun a b => appointmentsOverlap a b = false) :
    ∀ a ∈ l, calculateAppointmentLayout l a.id = some ⟨a.id, 0, 1⟩ := by
  intro a ha
  have hne : l.isEmpty = false := by
    cases l
    · cases ha
    · rfl
  unfold calculateAppointmentLayout
  simp only [hne, Bool.false_eq_true, if_false]
  have hperm := sortByStart_perm l
  have hsd : (sortByStart l).Pairwise fun a b => appointmentsOverlap a b = false :=
    (hperm.pairwise_iff fun {a b} h => (appointmentsOverlap_comm b a).trans h).mpr hdisj
  rw [buildGroups, foldl_insert_disjoint _ [] (by simp) hsd]
  rw [List.nil_append, foldl_assign_singletons]
  rw [if_pos ⟨a, hperm.mem_iff.mpr ha, rfl⟩]

/-- Witness for C3 at two disjoint back-to-back bookings of one date. -/
theorem disjoint_all_single_column_witness :
    (∀ a ∈ [aptA, aptB], a.date = ⟨2026, 1, 5⟩)
    ∧ List.Pairwise (fun a b => appointmentsOverlap a b = false) [aptA, aptB]
    ∧ ∀ a ∈ [aptA, aptB],
        calculateAppointmentLayout [aptA, aptB] a.id = some ⟨a.id, 0, 1⟩ :=
  ⟨by decide, by decide,
    disjoint_all_single_column [aptA, aptB] ⟨2026, 1, 5⟩ (by decide) (by decide)⟩

/-- An overlap edge between two members of the booking list. -/
def OvIn (l : List Appointment) (a b : Appointment) : Prop :=
  a ∈ l ∧ b ∈ l ∧ appointmentsOverlap a b = true

/-- Two bookings linked by a chain of pairwise-overlapping bookings of the
list: connectivity in the overlap graph. -/
def Connected (l : List Appointment) (a b : Appointment) : Prop :=
  Relation.ReflTransGen (OvIn l) a b

/-- Two bookings placed in one group. -/
def sameGroup (groups : List (List Appointment)) (a b : Appointment) : Prop :=
  ∃ g ∈ groups, a ∈ g ∧ b ∈ g

/-- The groups hold pairwise-disjoint member sets. -/
def GroupsDisjoint (gs : List (List Appointment)) : Prop :=
  gs.Pairwise fun g h => ∀ x, x ∈ g → x ∉ h

/-- Two bookings that both start no later than a third and both overlap it
overlap each other. -/
theorem mutual_overlap {c x y : Appointment} (hx : startMin x ≤ startMin c)
    (hy : startMin y ≤ startMin c) (h1 : appointmentsOverlap c x = true)
    (h2 : appointmentsOverlap c y = true) : appointmentsOverlap x y = true := by
  rw [appointmentsOverlap_iff] at h1 h2 ⊢
  obtain ⟨hd1, ha1, hb1⟩ := h1
  obtain ⟨hd2, ha2, hb2⟩ := h2
  exact ⟨hd1.symm.trans hd2, lt_of_le_of_lt hx ha2, lt_of_le_of_lt hy ha1⟩

theorem connected_symm {l : List Appointment} {a b : Appointment}
    (h : Connected l a b) : Connected l b a :=
  Relation.ReflTransGen.symmetric
    (fun x y hxy => ⟨hxy.2.1, hxy.1, (appointmentsOverlap_comm y x).trans hxy.2.2⟩) h

theorem connected_mono {l l' : List Appointment} {a b : Appointment}
    (h : ∀ x, x ∈ l → x ∈ l') (hc : Connected l a b) : Connected l' a b :=
  Relation.ReflTransGen.mono (fun x y hxy => ⟨h x hxy.1, h y hxy.2.1, hxy.2.2⟩) hc

theorem connected_congr {l l' : List Appointment} {a b : Appointment}
    (h : ∀ x, x ∈ l ↔ x ∈ l') : Connected l a b ↔ Connected l' a b :=
  ⟨connected_mono fun x hx => (h x).mp hx, connected_mono fun x hx => (h x).mpr hx⟩

theorem eq_of_mem_two_groups {gs : List (List Appointment)} (hd : GroupsDisjoint gs)
    {g g' : List Appointment} (hg : g ∈ gs) (hg' : g' ∈ gs) {x : Appointment}
    (hx : x ∈ g) (hx' : x ∈ g') : g = g' := by
  induction gs with
  | nil => cases hg
  | cons h rest ih =>
    obtain ⟨hh, hrest⟩ := List.pairwise_cons.mp hd
    rcases List.mem_cons.mp hg with rfl | hgr
    · rcases List.mem_cons.mp hg' with rfl | hgr'
      · rfl
      · exact absurd hx' (hh g' hgr' x hx)
    · rcases List.mem_cons.mp hg' with rfl | hgr'
      · exact absurd hx (hh g hgr x hx')
      · exact ih hrest hgr hgr'

/-- The grouping step either finds no overlapping group and appends a new
singleton, or appends the booking to the first group with an overlapping
member, every earlier group having none. -/
theorem insertIntoGroups_cases (gs : List (List Appointment)) (apt : Appointment) :
    (insertIntoGroups gs apt = gs ++ [[apt]]
      ∧ ∀ g ∈ gs, ∀ x ∈ g, appointmentsOverlap apt x = false)
    ∨ (∃ gs₁ g gs₂, gs = gs₁ ++ g :: gs₂
        ∧ insertIntoGroups gs apt = gs₁ ++ (g ++ [apt]) :: gs₂
        ∧ (∃ x ∈ g, appointmentsOverlap apt x = true)
        ∧ ∀ g' ∈ gs₁, ∀ x ∈ g', appointmentsOverlap apt x = false) := by
  induction gs with
  | nil => exact Or.inl ⟨rfl, by simp⟩
  | cons g rest ih =>
    by_cases h : (g.any fun existing => appointmentsOverlap apt existing) = true
    · refine Or.inr ⟨[], g, rest, rfl, ?_, ?_, by simp⟩
      · simp [insertIntoGroups, h]
      · simpa [List.any_eq_true] using h
    · have hfalse : ∀ x ∈ g, appointmentsOverlap apt x = false := by
        intro x hx
        cases hov : appointmentsOverlap apt x
        · rfl
        · exact absurd (by rw [List.any_eq_true]; exact ⟨x, hx, hov⟩) h
      have hins : insertIntoGroups (g :: rest) apt = g :: insertIntoGroups rest apt := by
        simp [insertIntoGroups, h]
      rcases ih with ⟨heq, hall⟩ | ⟨gs₁, g₀, gs₂, hsplit, heq, hov, hnone⟩
      · refine Or.inl ⟨?_, ?_⟩
        · rw [hins, heq, List.cons_append]
        · intro g' hg' x hx
          rcases List.mem_cons.mp hg' with rfl | hg'
          · exact hfalse x hx
          · exact hall g' hg' x hx
      · refine Or.inr ⟨g :: gs₁, g₀, gs₂, by rw [hsplit, List.cons_append], ?_, hov, ?_⟩
        · rw [hins, heq, List.cons_append]
        · intro g' hg' x hx
          rcases List.mem_cons.mp hg' with rfl | hg'
          · exact hfalse x hx
          · exact hnone g' hg' x hx

/-- Chain analysis after appending a booking that starts last: a chain into
the previous bookings either stays there entirely or starts at the new
booking with a direct overlap edge into them. -/
theorem chain_reaches {done : List Appointment} {apt : Appointment}
    (hnin : apt ∉ done) (hle : ∀ x ∈ done, startMin x ≤ startMin apt)
    {b : Appointment} (hb : b ∈ done) :
    ∀ a, Connected (done ++ [apt]) a b →
      (a ∈ done ∧ Connected done a b) ∨
      (a = apt ∧ ∃ z ∈ done, appointmentsOverlap apt z = true ∧ Connected done z b) := by
  intro a h
  induction h using Relation.ReflTransGen.head_induction_on with
  | refl => exact Or.inl ⟨hb, Relation.ReflTransGen.refl⟩
  | head hstep hchain ih =>
    obtain ⟨ha, hc, hov⟩ := hstep
    rcases List.mem_append.mp ha with ha | ha
    · rcases ih with ⟨hcd, hcb⟩ | ⟨hceq, z, hz, hovz, hzb⟩
      · exact Or.inl ⟨ha, Relation.ReflTransGen.head ⟨ha, hcd, hov⟩ hcb⟩
      · rw [hceq] at hov
        have hovaz :=
          mutual_overlap (hle _ ha) (hle z hz)
            ((appointmentsOverlap_comm apt _).trans hov) hovz
        exact Or.inl ⟨ha, Relation.ReflTransGen.head ⟨ha, hz, hovaz⟩ hzb⟩
    · have ha' := List.mem_singleton.mp ha
      rcases ih with ⟨hcd, hcb⟩ | ⟨hceq, z, hz, hovz, hzb⟩
      · refine Or.inr ⟨ha', _, hcd, ?_, hcb⟩
        rwa [ha'] at hov
      · exact Or.inr ⟨ha', z, hz, hovz, hzb⟩

theorem groupsDisjoint_mid (gs₁ gs₂ : List (List Appointment)) (g : List Appointment)
    (apt : Appointment) (hd : GroupsDisjoint (gs₁ ++ g :: gs₂))
    (hapt : ∀ g' ∈ gs₁ ++ g :: gs₂, apt ∉ g') :
    GroupsDisjoint (gs₁ ++ (g ++ [apt]) :: gs₂) := by
  unfold GroupsDisjoint at hd ⊢
  rw [List.pairwise_append] at hd ⊢
  obtain ⟨h1, h2, h3⟩ := hd
  rw [List.pairwise_cons] at h2 ⊢
  obtain ⟨h2a, h2b⟩ := h2
  refine ⟨h1, ⟨?_, h2b⟩, ?_⟩
  · intro q hq x hx
    rcases List.mem_append.mp hx with hx | hx
    · exact h2a q hq x hx
    · have hxa : x = apt := List.mem_singleton.mp hx
      subst hxa
      exact fun hxq => hapt q (List.mem_append_right _ (List.mem_cons_of_mem g hq)) hxq
  · intro p hp q hq x hxp
    rcases List.mem_cons.mp hq with rfl | hq
    · intro hxq
      rcases List.mem_append.mp hxq with hxq | hxq
      · exact h3 p hp g (List.mem_cons_self g gs₂) x hxp hxq
      · have hxa : x = apt := List.mem_singleton.mp hxq
        subst hxa
        exact hapt p (List.mem_append_left _ hp) hxp
    · exact h3 p hp q (List.mem_cons_of_mem g hq) x hxp

/-- One grouping step preserves the invariant: group membership matches the
processed bookings, two bookings share a group exactly when they are
connected among the processed bookings, and the groups stay disjoint. -/
theorem step_inv (done : List Appointment) (gs : List (List Appointment)) (apt : Appointment)
    (hmem : ∀ x, (∃ g ∈ gs, x ∈ g) ↔ x ∈ done)
    (hconn : ∀ a b, sameGroup gs a b ↔ (a ∈ done ∧ b ∈ done ∧ Connected done a b))
    (hdisj : GroupsDisjoint gs)
    (hnin : apt ∉ done)
    (hle : ∀ x ∈ done, startMin x ≤ startMin apt) :
    (∀ x, (∃ g ∈ insertIntoGroups gs apt, x ∈ g) ↔ x ∈ done ++ [apt])
    ∧ (∀ a b, sameGroup (insertIntoGroups gs apt) a b ↔
        (a ∈ done ++ [apt] ∧ b ∈ done ++ [apt] ∧ Connected (done ++ [apt]) a b))
    ∧ GroupsDisjoint (insertIntoGroups gs apt) := by
  have hsub : ∀ x, x ∈ done → x ∈ done ++ [apt] := fun x hx => List.mem_append_left _ hx
  have haptmem : apt ∈ done ++ [apt] := List.mem_append_right _ (by simp)
  rcases insertIntoGroups_cases gs apt with ⟨heq, hall⟩ | ⟨gs₁, g, gs₂, hsplit, heq, hovex, hnone⟩
  · -- no group overlaps: a fresh singleton group is appended
    have hno : ∀ z ∈ done, appointmentsOverlap apt z = false := by
      intro z hz
      obtain ⟨g, hg, hzg⟩ := (hmem z).mpr hz
      exact hall g hg z hzg
    rw [heq]
    refine ⟨?_, ?_, ?_⟩
    · intro x
      constructor
      · rintro ⟨g, hg, hx⟩
        rcases List.mem_append.mp hg with hg | hg
        · exact hsub x ((hmem x).mp ⟨g, hg, hx⟩)
        · have hg' : g = [apt] := List.mem_singleton.mp hg
          subst hg'
          obtain rfl := (List.mem_singleton.mp hx).symm
          exact haptmem
      · intro hx
        rcases List.mem_append.mp hx with hx | hx
        · obtain ⟨g, hg, hxg⟩ := (hmem x).mpr hx
          exact ⟨g, List.mem_append_left _ hg, hxg⟩
        · obtain rfl := (List.mem_singleton.mp hx).symm
          exact ⟨[apt], List.mem_append_right _ (by simp), by simp⟩
    · intro a b
      constructor
      · rintro ⟨g, hg, ha, hb⟩
        rcases List.mem_append.mp hg with hg | hg
        · obtain ⟨had, hbd, hc⟩ := (hconn a b).mp ⟨g, hg, ha, hb⟩
          exact ⟨hsub a had, hsub b hbd, connected_mono hsub hc⟩
        · have hg' : g = [apt] := List.mem_singleton.mp hg
          subst hg'
          obtain rfl := (List.mem_singleton.mp ha).symm
          obtain rfl := (List.mem_singleton.mp hb).symm
          exact ⟨haptmem, haptmem, Relation.ReflTransGen.refl⟩
      · rintro ⟨ha, hb, hc⟩
        rcases List.mem_append.mp hb with hb | hb
        · rcases chain_reaches hnin hle hb a hc with ⟨had, hcd⟩ | ⟨-, z, hz, hovz, -⟩
          · obtain ⟨g, hg, hag, hbg⟩ := (hconn a b).mpr ⟨had, hb, hcd⟩
            exact ⟨g, List.mem_append_left _ hg, hag, hbg⟩
          · rw [hno z hz] at hovz
            cases hovz
        · obtain rfl := (List.mem_singleton.mp hb).symm
          rcases List.mem_append.mp ha with ha | ha
          · rcases chain_reaches hnin hle ha apt (connected_symm hc) with
              ⟨had, -⟩ | ⟨-, z, hz, hovz, -⟩
            · exact absurd had hnin
            · rw [hno z hz] at hovz
              cases hovz
          · obtain rfl := (List.mem_singleton.mp ha).symm
            exact ⟨[apt], List.mem_append_right _ (by simp), by simp, by simp⟩
    · unfold GroupsDisjoint at hdisj ⊢
      rw [List.pairwise_append]
      refine ⟨hdisj, by simp, ?_⟩
      intro p hp q hq x hxp
      have hq' : q = [apt] := List.mem_singleton.mp hq
      subst hq'
      intro hxq
      obtain rfl := (List.mem_singleton.mp hxq).symm
      exact hnin ((hmem _).mp ⟨p, hp, hxp⟩)
  · -- the booking joins the first group with an overlapping member
    subst hsplit
    obtain ⟨x₀, hx₀g, hovx₀⟩ := hovex
    have hgin : g ∈ gs₁ ++ g :: gs₂ := List.mem_append_right _ (List.mem_cons_self g gs₂)
    have hx₀done : x₀ ∈ done := (hmem x₀).mp ⟨g, hgin, hx₀g⟩
    have hmemdone : ∀ g' ∈ gs₁ ++ g :: gs₂, ∀ x ∈ g', x ∈ done :=
      fun g' hg' x hx => (hmem x).mp ⟨g', hg', hx⟩
    have hall : ∀ z ∈ done, appointmentsOverlap apt z = true → z ∈ g := by
      intro z hz hovz
      have hovx₀z : appointmentsOverlap x₀ z = true :=
        mutual_overlap (hle x₀ hx₀done) (hle z hz) hovx₀ hovz
      obtain ⟨g', hg', hx₀', hz'⟩ := (hconn x₀ z).mpr
        ⟨hx₀done, hz, Relation.ReflTransGen.single ⟨hx₀done, hz, hovx₀z⟩⟩
      have hgg : g' = g := eq_of_mem_two_groups hdisj hg' hgin hx₀' hx₀g
      rw [hgg] at hz'
      exact hz'
    have hmidmem : g ++ [apt] ∈ gs₁ ++ (g ++ [apt]) :: gs₂ :=
      List.mem_append_right _ (List.mem_cons_self _ _)
    have hlift : ∀ a b, sameGroup (gs₁ ++ g :: gs₂) a b →
        sameGroup (gs₁ ++ (g ++ [apt]) :: gs₂) a b := by
      rintro a b ⟨g', hg', ha, hb⟩
      rcases List.mem_append.mp hg' with h1 | h1
      · exact ⟨g', List.mem_append_left _ h1, ha, hb⟩
      · rcases List.mem_cons.mp h1 with heq | h1
        · obtain rfl := heq.symm
          exact ⟨g ++ [apt], hmidmem, List.mem_append_left _ ha, List.mem_append_left _ hb⟩
        · exact ⟨g', List.mem_append_right _ (List.mem_cons_of_mem _ h1), ha, hb⟩
    rw [heq]
    refine ⟨?_, ?_, ?_⟩
    · intro x
      constructor
      · rintro ⟨g', hg', hx⟩
        rcases List.mem_append.mp hg' with h1 | h1
        · exact hsub x (hmemdone g' (List.mem_append_left _ h1) x hx)
        · rcases List.mem_cons.mp h1 with heq | h1
          · obtain rfl := heq.symm
            rcases List.mem_append.mp hx with hx | hx
            · exact hsub x (hmemdone g hgin x hx)
            · obtain rfl := (List.mem_singleton.mp hx).symm
              exact haptmem
          · exact hsub x
              (hmemdone g' (List.mem_append_right _ (List.mem_cons_of_mem _ h1)) x hx)
      · intro hx
        rcases List.mem_append.mp hx with hx | hx
        · obtain ⟨g', hg', hxg⟩ := (hmem x).mpr hx
          rcases List.mem_append.mp hg' with h1 | h1
          · exact ⟨g', List.mem_append_left _ h1, hxg⟩
          · rcases List.mem_cons.mp h1 with heq | h1
            · obtain rfl := heq.symm
              exact ⟨g ++ [apt], hmidmem, List.mem_append_left _ hxg⟩
            · exact ⟨g', List.mem_append_right _ (List.mem_cons_of_mem _ h1), hxg⟩
        · obtain rfl := (List.mem_singleton.mp hx).symm
          exact ⟨g ++ [apt], hmidmem, List.mem_append_right _ (by simp)⟩
    · intro a b
      constructor
      · rintro ⟨g', hg', ha, hb⟩
        rcases List.mem_append.mp hg' with h1 | h1
        · obtain ⟨had, hbd, hc⟩ := (hconn a b).mp ⟨g', List.mem_append_left _ h1, ha, hb⟩
          exact ⟨hsub a had, hsub b hbd, connected_mono hsub hc⟩
        · rcases List.mem_cons.mp h1 with heq | h1
          · obtain rfl := heq.symm
            rcases List.mem_append.mp ha with ha | ha
            · rcases List.mem_append.mp hb with hb | hb
              · obtain ⟨had, hbd, hc⟩ := (hconn a b).mp ⟨g, hgin, ha, hb⟩
                exact ⟨hsub a had, hsub b hbd, connected_mono hsub hc⟩
              · obtain rfl := (List.mem_singleton.mp hb).symm
                obtain ⟨had, -, hc⟩ := (hconn a x₀).mp ⟨g, hgin, ha, hx₀g⟩
                refine ⟨hsub a had, haptmem, ?_⟩
                exact (connected_mono hsub hc).tail
                  ⟨hsub x₀ hx₀done, haptmem, (appointmentsOverlap_comm x₀ apt).trans hovx₀⟩
            · obtain rfl := (List.mem_singleton.mp ha).symm
              rcases List.mem_append.mp hb with hb | hb
              · obtain ⟨hbd, -, hc⟩ := (hconn b x₀).mp ⟨g, hgin, hb, hx₀g⟩
                refine ⟨haptmem, hsub b hbd, ?_⟩
                exact connected_symm ((connected_mono hsub hc).tail
                  ⟨hsub x₀ hx₀done, haptmem, (appointmentsOverlap_comm x₀ apt).trans hovx₀⟩)
              · obtain rfl := (List.mem_singleton.mp hb).symm
                exact ⟨haptmem, haptmem, Relation.ReflTransGen.refl⟩
          · obtain ⟨had, hbd, hc⟩ := (hconn a b).mp
              ⟨g', List.mem_append_right _ (List.mem_cons_of_mem _ h1), ha, hb⟩
            exact ⟨hsub a had, hsub b hbd, connected_mono hsub hc⟩
      · rintro ⟨ha, hb, hc⟩
        rcases List.mem_append.mp ha with ha | ha
        · rcases List.mem_append.mp hb with hb | hb
          · rcases chain_reaches hnin hle hb a hc with ⟨had, hcd⟩ | ⟨haeq, -⟩
            · exact hlift a b ((hconn a b).mpr ⟨had, hb, hcd⟩)
            · exact absurd (haeq ▸ ha) hnin
          · obtain rfl := (List.mem_singleton.mp hb).symm
            rcases chain_reaches hnin hle ha apt (connected_symm hc) with
              ⟨had, -⟩ | ⟨-, z, hz, hovz, hza⟩
            · exact absurd had hnin
            · have hzg : z ∈ g := hall z hz hovz
              obtain ⟨g', hg', hzg', hag'⟩ := (hconn z a).mpr ⟨hz, ha, hza⟩
              have hgg : g' = g := eq_of_mem_two_groups hdisj hg' hgin hzg' hzg
              rw [hgg] at hag'
              exact ⟨g ++ [apt], hmidmem, List.mem_append_left _ hag',
                List.mem_append_right _ (by simp)⟩
        · obtain rfl := (List.mem_singleton.mp ha).symm
          rcases List.mem_append.mp hb with hb | hb
          · rcases chain_reaches hnin hle hb apt hc with ⟨had, -⟩ | ⟨-, z, hz, hovz, hzb⟩
            · exact absurd had hnin
            · have hzg : z ∈ g := hall z hz hovz
              obtain ⟨g', hg', hzg', hbg'⟩ := (hconn z b).mpr ⟨hz, hb, hzb⟩
              have hgg : g' = g := eq_of_mem_two_groups hdisj hg' hgin hzg' hzg
              rw [hgg] at hbg'
              exact ⟨g ++ [apt], hmidmem, List.mem_append_right _ (by simp),
                List.mem_append_left _ hbg'⟩
          · obtain rfl := (List.mem_singleton.mp hb).symm
            exact ⟨g ++ [apt], hmidmem, List.mem_append_right _ (by simp),
              List.mem_append_right _ (by simp)⟩
    · exact groupsDisjoint_mid gs₁ gs₂ g apt hdisj
        fun g' hg' hmem' => hnin (hmemdone g' hg' apt hmem')

/-- Folding the grouping step over a sorted pending list carries the
invariant from the processed prefix to the whole list. -/
theorem fold_inv (pending : List Appointment) :
    ∀ (done : List Appointment) (gs : List (List Appointment)),
    (∀ x, (∃ g ∈ gs, x ∈ g) ↔ x ∈ done) →
    (∀ a b, sameGroup gs a b ↔ (a ∈ done ∧ b ∈ done ∧ Connected done a b)) →
    GroupsDisjoint gs →
    (done ++ pending).Nodup →
    (∀ x ∈ done, ∀ y ∈ pending, startMin x ≤ startMin y) →
    pending.Pairwise (fun x y => startMin x ≤ startMin y) →
    (∀ x, (∃ g ∈ pending.foldl insertIntoGroups gs, x ∈ g) ↔ x ∈ done ++ pending)
    ∧ (∀ a b, sameGroup (pending.foldl insertIntoGroups gs) a b ↔
        (a ∈ done ++ pending ∧ b ∈ done ++ pending ∧ Connected (done ++ pending) a b))
    ∧ GroupsDisjoint (pending.foldl insertIntoGroups gs) := by
  induction pending with
  | nil =>
    intro done gs hmem hconn hdisj hnd hle hp
    simpa using ⟨hmem, hconn, hdisj⟩
  | cons apt rest ih =>
    intro done gs hmem hconn hdisj hnd hle hp
    have hnin : apt ∉ done := by
      intro hin
      exact (List.nodup_append.mp hnd).2.2 hin (List.mem_cons_self apt rest)
    have hle' : ∀ x ∈ done, startMin x ≤ startMin apt :=
      fun x hx => hle x hx apt (List.mem_cons_self apt rest)
    obtain ⟨hmem', hconn', hdisj'⟩ := step_inv done gs apt hmem hconn hdisj hnin hle'
    have happ : done ++ apt :: rest = (done ++ [apt]) ++ rest := by simp
    have hnd' : ((done ++ [apt]) ++ rest).Nodup := by rwa [happ] at hnd
    have hle'' : ∀ x ∈ done ++ [apt], ∀ y ∈ rest, startMin x ≤ startMin y := by
      intro x hx y hy
      rcases List.mem_append.mp hx with hx | hx
      · exact hle x hx y (List.mem_cons_of_mem apt hy)
      · obtain rfl := (List.mem_singleton.mp hx).symm
        exact (List.pairwise_cons.mp hp).1 y hy
    have hp' := (List.pairwise_cons.mp hp).2
    have hres := ih (done ++ [apt]) (insertIntoGroups gs apt) hmem' hconn' hdisj' hnd' hle'' hp'
    rw [List.foldl_cons]
    rwa [← happ] at hres

/-- Claim C1: for the bookings of one date with distinct ids, the grouping
phase of calculateAppointmentLayout covers exactly the input bookings, and
two bookings land in the same group exactly when a chain of
pairwise-overlapping bookings of the list links them — the groups are the
connected components of the overlap graph. -/
theorem grouping_connected_components (l : List Appointment) (d : CalDate)
    (hids : (l.map fun a => a.id).Nodup)
    (hdate : ∀ a ∈ l, a.date = d) :
    (∀ x, (∃ g ∈ buildGroups (sortByStart l), x ∈ g) ↔ x ∈ l)
    ∧ ∀ a b, a ∈ l → b ∈ l →
        (sameGroup (buildGroups (sortByStart l)) a b ↔ Connected l a b) := by
  have hperm := sortByStart_perm l
  have hnd : (sortByStart l).Nodup := hperm.nodup_iff.mpr (List.Nodup.of_map _ hids)
  obtain ⟨hmem, hconn, -⟩ := fold_inv (sortByStart l) [] []
    (by simp) (by simp [sameGroup]) (by simp [GroupsDisjoint]) (by simpa using hnd)
    (by simp) (sortByStart_sorted l)
  constructor
  · intro x
    simpa [buildGroups, hperm.mem_iff] using hmem x
  · intro a b ha hb
    have hiff := hconn a b
    rw [List.nil_append] at hiff
    rw [buildGroups, hiff]
    constructor
    · rintro ⟨-, -, hc⟩
      exact (connected_congr fun x => hperm.mem_iff).mp hc
    · intro hc
      exact ⟨hperm.mem_iff.mpr ha, hperm.mem_iff.mpr hb,
        (connected_congr fun x => hperm.mem_iff).mpr hc⟩

/-- Concrete chained-overlap scenario: 10:00 for 120, 10:30 for 60,
11:00 for 60 on one date. -/
def aptChainA : Appointment :=
  { id := "ca", serviceType := "s", clients := sampleClients,
    date := ⟨2026, 1, 5⟩, startTime := ⟨10, 0⟩, durationMinutes := 120,
    createdAt := 0, updatedAt := 0 }

/-- Second member of the chained scenario. -/
def aptChainB : Appointment :=
  { id := "cb", serviceType := "s", clients := sampleClients,
    date := ⟨2026, 1, 5⟩, startTime := ⟨10, 30⟩, durationMinutes := 60,
    createdAt := 0, updatedAt := 0 }

/-- Third member of the chained scenario. -/
def aptChainC : Appointment :=
  { id := "cc", serviceType := "s", clients := sampleClients,
    date := ⟨2026, 1, 5⟩, startTime := ⟨11, 0⟩, durationMinutes := 60,
    createdAt := 0, updatedAt := 0 }

/-- Witness for C1 at the chained-overlap scenario. -/
theorem grouping_connected_components_witness :
    (([aptChainA, aptChainB, aptChainC].map fun a => a.id).Nodup)
    ∧ (∀ a ∈ [aptChainA, aptChainB, aptChainC], a.date = ⟨2026, 1, 5⟩)
    ∧ ((∀ x, (∃ g ∈ buildGroups (sortByStart [aptChainA, aptChainB, aptChainC]), x ∈ g)
          ↔ x ∈ [aptChainA, aptChainB, aptChainC])
        ∧ ∀ a b, a ∈ [aptChainA, aptChainB, aptChainC] →
            b ∈ [aptChainA, aptChainB, aptChainC] →
            (sameGroup (buildGroups (sortByStart [aptChainA, aptChainB, aptChainC])) a b ↔
              Connected [aptChainA, aptChainB, aptChainC] a b)) :=
  ⟨by decide, by decide,
    grouping_connected_components [aptChainA, aptChainB, aptChainC] ⟨2026, 1, 5⟩
      (by decide) (by decide)⟩

end Cal
